import Mathlib

/-!
# Offline music player: library, playlists and playback queue

A shallow embedding of `src/app.js`.  The page keeps a global `state` object, an
`<audio>` element and two IndexedDB object stores (`tracks`, `playlists`).  Every
function of the source that touches them is written here as a pure function on
explicit state:

* `State` holds the fields of `state` the core uses together with the `<audio>` element
  (`src`, `paused`) and the registry of object URLs that `URL.createObjectURL` has
  handed out and `URL.revokeObjectURL` has not yet released;
* `DB` holds the two object stores as lists of records in cursor order, with the
  auto-increment key generators.

IndexedDB requests complete asynchronously; a function that chains requests is modelled
by the state once its last success callback has run.  DOM text and CSS class changes,
the visualizer and the media-session metadata are not modelled.  JavaScript numbers
used as ids, sizes and indices are integers here (`Nat`, and `Int` for `queueIndex`,
whose initial value is `-1`); `%` is the truncating remainder `Int.tmod`.  JavaScript
strings are Lean strings, and a regular expression is applied character by character.
-/

namespace Music1

/-! ## Data model -/

/-- A `File` handed over by the upload input: its name, MIME type, byte length and
bytes. -/
structure File where
  name : String
  type : String
  size : Nat
  content : List Nat
deriving DecidableEq

/-- A record of the `tracks` object store (`keyPath: 'id'`). -/
structure Track where
  id : Nat
  name : String
  type : String
  size : Nat
  data : File
  addedAt : Nat
deriving DecidableEq

/-- A record of the `playlists` object store (`keyPath: 'id'`). -/
structure Playlist where
  id : Nat
  name : String
  createdAt : Nat
  trackIds : List Nat
deriving DecidableEq

/-- The session: the `state` object, the `<audio>` element and the object-URL registry.
`audioSrc = some u` stands for `els.audio.src` holding the object URL number `u`, and
`audioSrc = none` for its holding no object URL (before the first load and after
`els.audio.src = ""`); revoking a URL that is not an object URL releases nothing. -/
structure State where
  audioCtx : Bool
  currentTrack : Option Track
  queue : List Track
  queueIndex : Int
  isPlaying : Bool
  activePlaylistId : Option Nat
  audioSrc : Option Nat
  audioPaused : Bool
  liveUrls : List Nat
  nextUrl : Nat
deriving DecidableEq

/-- The `state` literal at page load, with a silent `<audio>` element and no object URL
handed out. -/
def State.initial : State where
  audioCtx := false
  currentTrack := none
  queue := []
  queueIndex := -1
  isPlaying := false
  activePlaylistId := none
  audioSrc := none
  audioPaused := true
  liveUrls := []
  nextUrl := 0

/-! ## Audio engine and playback queue -/

/-- JavaScript `xs[i]` for an integer `i`: `undefined` (here `none`) outside
`0 ≤ i < xs.length`. -/
def arrayGet {α : Type} (xs : List α) (i : Int) : Option α :=
  if 0 ≤ i then xs[i.toNat]? else none

/-- The JavaScript remainder `a % b` on integers (sign of the dividend). -/
def jsMod (a b : Int) : Int := Int.tmod a b

/-- Embeds `initAudioContext`: creates the audio graph once. -/
def initAudioContext (s : State) : State :=
  if s.audioCtx then s else { s with audioCtx := true }

/-- Embeds `URL.revokeObjectURL(u)`. -/
def revokeObjectURL (u : Nat) (live : List Nat) : List Nat :=
  live.filter (fun v => v ≠ u)

/-- Embeds `loadTrack(track)`, up to the call of `els.audio.play()`: returns at once on
`undefined`; otherwise records the track, revokes the URL the element holds (if its
`src` is non-empty), creates a fresh object URL for `track.data`, binds it and starts
the output. -/
def loadTrack (track : Option Track) (s : State) : State :=
  match track with
  | none => s
  | some t =>
    let live := match s.audioSrc with
      | some u => revokeObjectURL u s.liveUrls
      | none => s.liveUrls
    { s with
      currentTrack := some t
      liveUrls := s.nextUrl :: live
      nextUrl := s.nextUrl + 1
      audioSrc := some s.nextUrl
      audioPaused := false }

/-- The `.then` continuation of `els.audio.play()` in `loadTrack`. -/
def onPlayStarted (s : State) : State := { s with isPlaying := true }

/-- The `pause` event listener of the `<audio>` element. -/
def onPause (s : State) : State := { s with isPlaying := false }

/-- Embeds `playQueue(queue, startIndex)`. -/
def playQueue (queue : List Track) (startIndex : Int) (s : State) : State :=
  let s1 := initAudioContext s
  let s2 := { s1 with queue := queue, queueIndex := startIndex }
  loadTrack (arrayGet s2.queue s2.queueIndex) s2

/-- Embeds `playNext()`; also the `ended` listener and the "next" button. -/
def playNext (s : State) : State :=
  if s.queue.length = 0 then s
  else
    let s1 := { s with queueIndex := jsMod (s.queueIndex + 1) s.queue.length }
    loadTrack (arrayGet s1.queue s1.queueIndex) s1

/-- Embeds `playPrev()`. -/
def playPrev (s : State) : State :=
  if s.queue.length = 0 then s
  else
    let s1 := { s with queueIndex := jsMod (s.queueIndex - 1 + s.queue.length) s.queue.length }
    loadTrack (arrayGet s1.queue s1.queueIndex) s1

/-- A UI action that drives the queue.  A track row (`renderLibrary`,
`renderPlaylistTracks`) calls `playQueue` with the rendered list and the position of
the row in it; the play-playlist button bound by `openPlaylist` calls
`playQueue(playlistTracks, 0)`; the buttons and the `ended` event call `playNext` and
`playPrev`. -/
inductive QueueEvent where
  | rowPlay (tracks : List Track) (index : Fin tracks.length)
  | playPlaylist (playlistTracks : List Track)
  | next
  | prev
  | ended

/-- The handler the source binds to each UI action. -/
def QueueEvent.apply : QueueEvent → State → State
  | .rowPlay tracks index, s => playQueue tracks (index.val : Int) s
  | .playPlaylist playlistTracks, s => playQueue playlistTracks 0 s
  | .next, s => playNext s
  | .prev, s => playPrev s
  | .ended, s => playNext s

/-- The session after a sequence of UI actions, handled one after the other. -/
def runEvents (events : List QueueEvent) (s : State) : State :=
  events.foldl (fun acc e => e.apply acc) s

/-- The relation between queue and position that the queue actions maintain: a
non-empty queue has its index in range, an empty queue has index `-1` or `0`. -/
def QueueInv (s : State) : Prop :=
  (s.queue ≠ [] → 0 ≤ s.queueIndex ∧ s.queueIndex < (s.queue.length : Int)) ∧
  (s.queue = [] → s.queueIndex = -1 ∨ s.queueIndex = 0)

/-! ## IndexedDB object stores -/

/-- The database: both object stores in key (cursor) order and their key generators. -/
structure DB where
  tracks : List Track
  tracksNextKey : Nat
  playlists : List Playlist
  playlistsNextKey : Nat
deriving DecidableEq

/-- Embeds `store.get(key)` on `playlists`. -/
def getPlaylist (key : Nat) (store : List Playlist) : Option Playlist :=
  store.find? (fun p => p.id == key)

/-- Embeds `store.put(record)` on `playlists`: overwrites the record stored under the key of
`record`, or inserts it at its place in key order. -/
def putPlaylist (record : Playlist) : List Playlist → List Playlist
  | [] => [record]
  | p :: ps =>
    if record.id < p.id then record :: p :: ps
    else if record.id = p.id then record :: ps
    else p :: putPlaylist record ps

/-- Embeds `store.delete(key)` on `tracks`. -/
def deleteTrackRecord (key : Nat) (store : List Track) : List Track :=
  store.filter (fun t => t.id ≠ key)

/-- The object literal that `saveFiles` hands to `store.add`: a track without its key. -/
structure NewTrack where
  name : String
  type : String
  size : Nat
  data : File
  addedAt : Nat
deriving DecidableEq

/-- Embeds `store.add(track)` on `tracks`: the key generator supplies the `id`. -/
def addTrackRecord (track : NewTrack) (db : DB) : DB :=
  { db with
    tracks := db.tracks ++
      [{ id := db.tracksNextKey, name := track.name, type := track.type, size := track.size,
         data := track.data, addedAt := track.addedAt }]
    tracksNextKey := db.tracksNextKey + 1 }

/-! ## Library: upload and deletion -/

/-- Whether `/\.[^/.]+$/` matches starting at the first character of `cs`: a dot, then
one or more characters other than `/` and `.`, then the end of the input. -/
def extensionMatchesAt : List Char → Bool
  | [] => false
  | c :: rest => c == '.' && !rest.isEmpty && rest.all (fun d => d != '/' && d != '.')

/-- The characters of `name.replace(/\.[^/.]+$/, "")`: the leftmost match is cut out. -/
def stripExtension : List Char → List Char
  | [] => []
  | c :: cs => if extensionMatchesAt (c :: cs) then [] else c :: stripExtension cs

/-- Embeds `file.name.replace(/\.[^/.]+$/, "")`. -/
def stripName (name : String) : String := String.mk (stripExtension name.data)

/-- Embeds `file.type || 'audio/mp3'`: the empty string is falsy. -/
def fileTypeOf (file : File) : String :=
  if file.type = "" then "audio/mp3" else file.type

/-- The `track` literal built by `saveFiles` for one file; `now` is `Date.now()`. -/
def trackOfFile (file : File) (now : Nat) : NewTrack where
  name := stripName file.name
  type := fileTypeOf file
  size := file.size
  data := file
  addedAt := now

/-- Embeds `saveFiles(files)`, each file paired with the clock reading taken while its record
is built; the `add` requests are issued in file order. -/
def saveFiles (files : List (File × Nat)) (db : DB) : DB :=
  files.foldl (fun acc f => addTrackRecord (trackOfFile f.1 f.2) acc) db

/-- The cursor step of `deleteTrack` on one playlist record. -/
def pruneTrackId (trackId : Nat) (pl : Playlist) : Playlist :=
  if pl.trackIds.contains trackId then
    { pl with trackIds := pl.trackIds.filter (fun id => id ≠ trackId) }
  else pl

/-- Embeds `deleteTrack(trackId)`; `confirmed` is the answer of the `confirm` dialog. -/
def deleteTrack (confirmed : Bool) (trackId : Nat) (s : State) (db : DB) : State × DB :=
  if !confirmed then (s, db)
  else
    let s1 :=
      match s.currentTrack with
      | none => s
      | some cur =>
        if cur.id = trackId then
          { s with audioPaused := true, audioSrc := none, currentTrack := none,
                   isPlaying := false }
        else s
    let db1 := { db with tracks := deleteTrackRecord trackId db.tracks }
    let db2 := { db1 with playlists := db1.playlists.map (pruneTrackId trackId) }
    (s1, db2)

/-! ## Playlists -/

/-- The `.filter(t => t)` of `openPlaylist`: keeps the entries that are a track
(an object, truthy) and drops `undefined`. -/
def filterTruthy : List (Option Track) → List Track
  | [] => []
  | none :: rest => filterTruthy rest
  | some t :: rest => t :: filterTruthy rest

/-- The `playlistTracks` computed by `openPlaylist`:
`playlist.trackIds.map(tid => allTracks.find(t => t.id === tid)).filter(t => t)`. -/
def playlistTracks (playlist : Playlist) (allTracks : List Track) : List Track :=
  filterTruthy (playlist.trackIds.map (fun tid => allTracks.find? (fun t => t.id == tid)))

/-- Embeds `openPlaylist(id)`: records the active playlist and, when the playlist exists,
yields the list it renders and binds to the play button. -/
def openPlaylist (id : Nat) (s : State) (db : DB) : State × Option (List Track) :=
  ({ s with activePlaylistId := some id },
   (getPlaylist id db.playlists).map (fun playlist => playlistTracks playlist db.tracks))

/-- Playlist resolution in the words of the specification: the track ids in order,
each replaced by the stored track with that id, ids without a stored track dropped. -/
def resolveSpec (allTracks : List Track) : List Nat → List Track
  | [] => []
  | tid :: rest =>
    match allTracks.find? (fun t => t.id == tid) with
    | some t => t :: resolveSpec allTracks rest
    | none => resolveSpec allTracks rest

/-- What a click on a row of the add-to-playlist modal leaves behind: the playlist
object the row closes over, the database, the record handed to `put` (if any) and the
text shown by `alert` (if any). -/
structure AddClick where
  pl : Playlist
  db : DB
  persisted : Option Playlist
  alert : Option String
deriving DecidableEq

/-- The `li.onclick` handler built by `addToPlaylist(trackId)` for the playlist `pl`. -/
def addToPlaylistClick (trackId : Nat) (pl : Playlist) (db : DB) : AddClick :=
  if !pl.trackIds.contains trackId then
    let pl1 := { pl with trackIds := pl.trackIds ++ [trackId] }
    { pl := pl1, db := { db with playlists := putPlaylist pl1 db.playlists },
      persisted := some pl1, alert := none }
  else
    { pl := pl, db := db, persisted := none, alert := some "Track already in playlist" }

/-- Embeds `addToPlaylist(trackId)`: one modal row per stored playlist, labelled with its
name and carrying its click handler. -/
def addToPlaylist (trackId : Nat) (db : DB) : List (String × (DB → AddClick)) :=
  db.playlists.map (fun pl => (pl.name, addToPlaylistClick trackId pl))

/-- Embeds `removeFromPlaylist(playlistId, trackId)`: `none` when `store.get` finds no record
(the callback then throws on `pl.trackIds` and nothing is written). -/
def removeFromPlaylist (playlistId trackId : Nat) (db : DB) : Option DB :=
  match getPlaylist playlistId db.playlists with
  | none => none
  | some pl =>
    some { db with
      playlists :=
        putPlaylist { pl with trackIds := pl.trackIds.filter (fun id => id ≠ trackId) }
          db.playlists }

/-! ## Sample data -/

/-- A small file used in the worked examples. -/
def sampleFile (name : String) : File :=
  { name := name, type := "audio/mpeg", size := 3, content := [1, 2, 3] }

/-- A stored track used in the worked examples. -/
def sampleTrack (id : Nat) : Track :=
  { id := id, name := "t", type := "audio/mpeg", size := 3, data := sampleFile "t.mp3",
    addedAt := 0 }

/-- A queue of three tracks. -/
def sampleQueue : List Track := [sampleTrack 1, sampleTrack 2, sampleTrack 5]

/-- A database with tracks 1, 2, 5 and two playlists. -/
def sampleDB : DB where
  tracks := sampleQueue
  tracksNextKey := 6
  playlists :=
    [{ id := 1, name := "Chill", createdAt := 0, trackIds := [5, 1, 5] },
     { id := 2, name := "Focus", createdAt := 0, trackIds := [2, 1] }]
  playlistsNextKey := 3

/-- The session after track 1 is played from the library and then deleted while it is
the current track: the queue and the index stay, the current track is cleared. -/
def clearedState : State :=
  (deleteTrack true 1 (playQueue sampleQueue 0 State.initial) sampleDB).1

/-- The playlist "Chill" as stored in `sampleDB`. -/
def chillPlaylist : Playlist :=
  { id := 1, name := "Chill", createdAt := 0, trackIds := [5, 1, 5] }

/-- The playlist "Focus" as stored in `sampleDB`. -/
def focusPlaylist : Playlist :=
  { id := 2, name := "Focus", createdAt := 0, trackIds := [2, 1] }

/-- The session while track 5, the third row of the library, is loaded. -/
def playingState : State := playQueue sampleQueue 2 State.initial

/-- A playlist with a dangling reference (no track 9 is stored). -/
def danglingPlaylist : Playlist :=
  { id := 3, name := "Mix", createdAt := 0, trackIds := [5, 9, 1] }

/-- A playlist without entries, as `createPlaylist` stores it. -/
def emptyPlaylist : Playlist :=
  { id := 4, name := "New", createdAt := 0, trackIds := [] }

/-! ## Basic facts about the queue operations -/

theorem loadTrack_queue (t : Option Track) (s : State) :
    (loadTrack t s).queue = s.queue ∧ (loadTrack t s).queueIndex = s.queueIndex := by
  cases t <;> simp [loadTrack]

theorem arrayGet_ofNat {α : Type} (xs : List α) (i : Nat) :
    arrayGet xs (i : Int) = xs[i]? := by
  simp [arrayGet]

theorem jsMod_ofNat (a n : Nat) : jsMod (a : Int) (n : Int) = ((a % n : Nat) : Int) := by
  unfold jsMod
  rw [Int.tmod_eq_emod (by omega) (by omega)]
  norm_cast

theorem arrayGet_lt {α : Type} (xs : List α) (i : Nat) (h : i < xs.length) :
    arrayGet xs (i : Int) = some (xs.get ⟨i, h⟩) := by
  rw [arrayGet_ofNat]
  exact List.getElem?_eq_getElem h

theorem initAudioContext_fields (s : State) :
    (initAudioContext s).queue = s.queue ∧ (initAudioContext s).queueIndex = s.queueIndex ∧
    (initAudioContext s).currentTrack = s.currentTrack ∧
    (initAudioContext s).audioSrc = s.audioSrc ∧
    (initAudioContext s).liveUrls = s.liveUrls ∧
    (initAudioContext s).isPlaying = s.isPlaying := by
  unfold initAudioContext
  split <;> simp

/-- With an in-range start index `playQueue` installs the list, the index and the track
at that index. -/
theorem playQueue_inRange (L : List Track) (i : Nat) (s : State) (h : i < L.length) :
    (playQueue L (i : Int) s).queue = L ∧ (playQueue L (i : Int) s).queueIndex = (i : Int) ∧
    (playQueue L (i : Int) s).currentTrack = some (L.get ⟨i, h⟩) := by
  simp [playQueue, arrayGet_lt L i h, loadTrack]

/-- One `playNext` on a non-empty queue whose index is in range. -/
theorem playNext_inRange (s : State) (i : Nat) (hi : s.queueIndex = (i : Int))
    (h : i < s.queue.length) :
    (playNext s).queue = s.queue ∧
    (playNext s).queueIndex = (((i + 1) % s.queue.length : Nat) : Int) ∧
    (playNext s).currentTrack = s.queue[(i + 1) % s.queue.length]? := by
  have hn : s.queue.length ≠ 0 := by omega
  have hm : jsMod (s.queueIndex + 1) (s.queue.length : Int)
      = (((i + 1) % s.queue.length : Nat) : Int) := by
    rw [hi]
    exact_mod_cast jsMod_ofNat (i + 1) s.queue.length
  have hlt : (i + 1) % s.queue.length < s.queue.length := Nat.mod_lt _ (Nat.zero_lt_of_lt h)
  simp only [playNext, hn, if_false, hm, arrayGet_lt s.queue _ hlt, loadTrack]
  simp [List.getElem?_eq_getElem hlt]

/-- One `playPrev` on a non-empty queue whose index is in range. -/
theorem playPrev_inRange (s : State) (i : Nat) (hi : s.queueIndex = (i : Int))
    (h : i < s.queue.length) :
    (playPrev s).queue = s.queue ∧
    (playPrev s).queueIndex = (((i + s.queue.length - 1) % s.queue.length : Nat) : Int) ∧
    (playPrev s).currentTrack = s.queue[(i + s.queue.length - 1) % s.queue.length]? := by
  have hn : s.queue.length ≠ 0 := by omega
  have hm : jsMod (s.queueIndex - 1 + s.queue.length) (s.queue.length : Int)
      = (((i + s.queue.length - 1) % s.queue.length : Nat) : Int) := by
    rw [hi, ← jsMod_ofNat]
    congr 1
    omega
  have hlt : (i + s.queue.length - 1) % s.queue.length < s.queue.length :=
    Nat.mod_lt _ (Nat.zero_lt_of_lt h)
  simp only [playPrev, hn, if_false, hm, arrayGet_lt s.queue _ hlt, loadTrack]
  simp [List.getElem?_eq_getElem hlt]

theorem playNext_empty (s : State) (h : s.queue = []) : playNext s = s := by
  simp [playNext, h]

theorem playPrev_empty (s : State) (h : s.queue = []) : playPrev s = s := by
  simp [playPrev, h]

/-! ## C3: advancing through the queue -/

/-- C3.  After `playQueue(L, s)` with `0 ≤ s < n = L.length`, followed by `k` calls of
`playNext`, the queue is `L`, `queueIndex` is `(s + k) mod n` and the current track is
`L[(s + k) mod n]`; with an empty queue `playNext` changes nothing. -/
theorem playNext_iterate (L : List Track) (s k : Nat) (st : State) (hs : s < L.length) :
    (playNext^[k] (playQueue L (s : Int) st)).queue = L ∧
    (playNext^[k] (playQueue L (s : Int) st)).queueIndex = (((s + k) % L.length : Nat) : Int) ∧
    (playNext^[k] (playQueue L (s : Int) st)).currentTrack =
      some (L.get ⟨(s + k) % L.length, Nat.mod_lt _ (Nat.zero_lt_of_lt hs)⟩) ∧
    (∀ e : State, playNext { e with queue := [] } = { e with queue := [] }) := by
  have hpos : 0 < L.length := Nat.zero_lt_of_lt hs
  have main : ∀ k : Nat,
      (playNext^[k] (playQueue L (s : Int) st)).queue = L ∧
      (playNext^[k] (playQueue L (s : Int) st)).queueIndex
        = (((s + k) % L.length : Nat) : Int) ∧
      (playNext^[k] (playQueue L (s : Int) st)).currentTrack
        = L[(s + k) % L.length]? := by
    intro k
    induction k with
    | zero =>
      obtain ⟨h1, h2, h3⟩ := playQueue_inRange L s st hs
      refine ⟨h1, ?_, ?_⟩
      · simpa [Nat.mod_eq_of_lt hs] using h2
      · simp [Nat.mod_eq_of_lt hs, h3, List.getElem?_eq_getElem hs]
    | succ k ih =>
      obtain ⟨q, ix, _⟩ := ih
      rw [Function.iterate_succ_apply']
      have hlt : (s + k) % L.length < (playNext^[k] (playQueue L (s : Int) st)).queue.length := by
        rw [q]; exact Nat.mod_lt _ hpos
      obtain ⟨h1, h2, h3⟩ := playNext_inRange _ _ ix hlt
      have hidx : ((s + k) % L.length + 1) % L.length = (s + (k + 1)) % L.length := by
        rw [Nat.mod_add_mod, Nat.add_assoc]
      refine ⟨h1.trans q, ?_, ?_⟩
      · rw [h2, q, hidx]
      · rw [h3, q, hidx]
  obtain ⟨m1, m2, m3⟩ := main k
  refine ⟨m1, m2, ?_, ?_⟩
  · rw [m3, List.getElem?_eq_getElem (Nat.mod_lt _ hpos)]
    rfl
  · intro e
    exact playNext_empty _ rfl

/-- C3 on the scenario of the specification: `playQueue([T1, T2, T3], 0)` and three
`playNext` calls wrap to index 0. -/
theorem playNext_iterate_witness :
    0 < sampleQueue.length ∧
    (playNext^[3] (playQueue sampleQueue ((0 : Nat) : Int) State.initial)).queueIndex
      = (((0 + 3) % sampleQueue.length : Nat) : Int) :=
  ⟨by decide, (playNext_iterate sampleQueue 0 3 State.initial (by decide)).2.1⟩

/-! ## C4: stepping back -/

theorem succ_mod_pred (i n : Nat) (h : i < n) : ((i + 1) % n + n - 1) % n = i := by
  rcases Nat.lt_or_ge (i + 1) n with h1 | h1
  · rw [Nat.mod_eq_of_lt h1]
    have e : i + 1 + n - 1 = i + n := by omega
    rw [e, Nat.add_mod_right, Nat.mod_eq_of_lt h]
  · have hn : i + 1 = n := by omega
    have e : n - 1 < n := by omega
    rw [hn, Nat.mod_self, Nat.zero_add, Nat.mod_eq_of_lt e]
    omega

theorem pred_mod_succ (i n : Nat) (h : i < n) : ((i + n - 1) % n + 1) % n = i := by
  rcases Nat.eq_zero_or_pos i with h0 | h0
  · subst h0
    have e : n - 1 < n := by omega
    have e2 : n - 1 + 1 = n := by omega
    rw [Nat.zero_add, Nat.mod_eq_of_lt e, e2, Nat.mod_self]
  · have e : i + n - 1 = (i - 1) + n := by omega
    have e1 : i - 1 < n := by omega
    have e2 : i - 1 + 1 = i := by omega
    rw [e, Nat.add_mod_right, Nat.mod_eq_of_lt e1, e2, Nat.mod_eq_of_lt h]

/-- C4, as stated, fails: in a state whose queue is non-empty and whose index is in
range but whose current track has been cleared, `playPrev` after `playNext` ends with the
track at the index loaded, not with the original (absent) current track. -/
theorem playPrev_playNext_counterexample :
    clearedState.queue ≠ [] ∧ 0 ≤ clearedState.queueIndex ∧
    clearedState.queueIndex < (clearedState.queue.length : Int) ∧
    (playPrev (playNext clearedState)).queueIndex = clearedState.queueIndex ∧
    clearedState.currentTrack = none ∧
    (playPrev (playNext clearedState)).currentTrack ≠ clearedState.currentTrack := by
  decide

/-- C4, amended.  On a non-empty queue of length `n` with index `i`, `0 ≤ i < n`,
`playPrev` sets `queueIndex` to `(i - 1 + n) mod n` (index 0 goes to `n - 1`); `playPrev`
after `playNext`, and `playNext` after `playPrev`, restore the queue and the original
`queueIndex` and leave the current track equal to `queue[i]`, which is the original
current track whenever the original current track was `queue[i]`. -/
theorem playPrev_playNext_inverse (s : State) (i : Nat) (hi : s.queueIndex = (i : Int))
    (h : i < s.queue.length) :
    (playPrev s).queueIndex = ((i : Int) - 1 + (s.queue.length : Int)) % (s.queue.length : Int) ∧
    (i = 0 → (playPrev s).queueIndex = (s.queue.length : Int) - 1) ∧
    ((playPrev (playNext s)).queue = s.queue ∧
      (playPrev (playNext s)).queueIndex = s.queueIndex ∧
      (playPrev (playNext s)).currentTrack = some (s.queue.get ⟨i, h⟩) ∧
      (s.currentTrack = some (s.queue.get ⟨i, h⟩) →
        (playPrev (playNext s)).currentTrack = s.currentTrack)) ∧
    ((playNext (playPrev s)).queue = s.queue ∧
      (playNext (playPrev s)).queueIndex = s.queueIndex ∧
      (playNext (playPrev s)).currentTrack = some (s.queue.get ⟨i, h⟩) ∧
      (s.currentTrack = some (s.queue.get ⟨i, h⟩) →
        (playNext (playPrev s)).currentTrack = s.currentTrack)) := by
  have hpos : 0 < s.queue.length := Nat.zero_lt_of_lt h
  obtain ⟨pq, pi, pt⟩ := playPrev_inRange s i hi h
  obtain ⟨nq, ni, nt⟩ := playNext_inRange s i hi h
  have hget : s.queue[i]? = some (s.queue.get ⟨i, h⟩) := List.getElem?_eq_getElem h
  refine ⟨?_, ?_, ?_, ?_⟩
  · rw [pi]
    have : ((i : Int) - 1 + (s.queue.length : Int)) = ((i + s.queue.length - 1 : Nat) : Int) := by
      omega
    rw [this]
    norm_cast
  · intro h0
    rw [pi, h0, Nat.zero_add, Nat.mod_eq_of_lt (by omega)]
    omega
  · have hlt : (i + 1) % s.queue.length < (playNext s).queue.length := by
      rw [nq]; exact Nat.mod_lt _ hpos
    obtain ⟨q2, i2, t2⟩ := playPrev_inRange (playNext s) _ ni hlt
    rw [nq] at q2 i2 t2
    rw [succ_mod_pred i _ h] at i2 t2
    refine ⟨q2, by rw [i2, hi], by rw [t2, hget], ?_⟩
    intro hc
    rw [t2, hget, hc]
  · have hlt : (i + s.queue.length - 1) % s.queue.length < (playPrev s).queue.length := by
      rw [pq]; exact Nat.mod_lt _ hpos
    obtain ⟨q2, i2, t2⟩ := playNext_inRange (playPrev s) _ pi hlt
    rw [pq] at q2 i2 t2
    rw [pred_mod_succ i _ h] at i2 t2
    refine ⟨q2, by rw [i2, hi], by rw [t2, hget], ?_⟩
    intro hc
    rw [t2, hget, hc]

/-- C4 amended, on the queue-wrap scenario: in a queue of length 3 at index 0,
`playPrev` yields index 2, and `playPrev` after `playNext` gives back the current track. -/
theorem playPrev_playNext_inverse_witness :
    (playQueue sampleQueue 0 State.initial).queueIndex = ((0 : Nat) : Int) ∧
    0 < (playQueue sampleQueue 0 State.initial).queue.length ∧
    (playPrev (playQueue sampleQueue 0 State.initial)).queueIndex
      = (((playQueue sampleQueue 0 State.initial).queue.length : Nat) : Int) - 1 ∧
    (playPrev (playNext (playQueue sampleQueue 0 State.initial))).currentTrack
      = (playQueue sampleQueue 0 State.initial).currentTrack :=
  ⟨by decide, by decide,
    (playPrev_playNext_inverse (playQueue sampleQueue 0 State.initial) 0 (by decide)
      (by decide)).2.1 rfl,
    (playPrev_playNext_inverse (playQueue sampleQueue 0 State.initial) 0 (by decide)
      (by decide)).2.2.1.2.2.2 (by decide)⟩

/-! ## C5: the start index of `playQueue` -/

theorem playQueue_queue (L : List Track) (i : Int) (s : State) :
    (playQueue L i s).queue = L ∧ (playQueue L i s).queueIndex = i := by
  unfold playQueue
  simp only [(loadTrack_queue _ _).1, (loadTrack_queue _ _).2]
  simp

theorem arrayGet_outOfRange {α : Type} (xs : List α) (i : Int)
    (h : ¬ (0 ≤ i ∧ i < (xs.length : Int))) : arrayGet xs i = none := by
  unfold arrayGet
  split
  · rw [List.getElem?_eq_none_iff]
    omega
  · rfl

/-- C5, as stated, fails: with a start index beyond the list, and with index 0 on an
empty list, `playQueue` still overwrites `queue` and `queueIndex`. -/
theorem playQueue_outOfRange_counterexample :
    ¬ ((0 : Int) ≤ 7 ∧ (7 : Int) < (sampleQueue.length : Int)) ∧
    (playQueue sampleQueue 7 State.initial).queue ≠ State.initial.queue ∧
    (playQueue sampleQueue 7 State.initial).queueIndex ≠ State.initial.queueIndex ∧
    (playQueue [] 0 State.initial).queueIndex ≠ State.initial.queueIndex := by
  decide

/-- C5, amended.  `playQueue(L, startIndex)` is total: for every list and every index
it sets `queue = L` and `queueIndex = startIndex`.  When `0 ≤ startIndex < L.length` the
current track becomes `L[startIndex]`; otherwise nothing is loaded, and the current
track, the bound URL, the live URLs and `isPlaying` stay as they were. -/
theorem playQueue_total (L : List Track) (i : Int) (s : State) :
    (playQueue L i s).queue = L ∧ (playQueue L i s).queueIndex = i ∧
    ((0 ≤ i ∧ i < (L.length : Int)) →
      (playQueue L i s).currentTrack = L[i.toNat]? ∧ (L[i.toNat]?).isSome = true) ∧
    (¬ (0 ≤ i ∧ i < (L.length : Int)) →
      (playQueue L i s).currentTrack = s.currentTrack ∧
      (playQueue L i s).audioSrc = s.audioSrc ∧
      (playQueue L i s).liveUrls = s.liveUrls ∧
      (playQueue L i s).isPlaying = s.isPlaying) := by
  refine ⟨(playQueue_queue L i s).1, (playQueue_queue L i s).2, ?_, ?_⟩
  · rintro ⟨h0, h1⟩
    have hlt : i.toNat < L.length := by omega
    have hi : i = (i.toNat : Int) := by omega
    obtain ⟨_, _, h3⟩ := playQueue_inRange L i.toNat s hlt
    rw [← hi] at h3
    rw [h3, List.getElem?_eq_getElem hlt]
    exact ⟨rfl, rfl⟩
  · intro h
    obtain ⟨_, _, c, a, l, p⟩ := initAudioContext_fields s
    simp only [playQueue, arrayGet_outOfRange L i h, loadTrack]
    exact ⟨c, a, l, p⟩

/-- C5 amended, at index 2 of a three-track list and at index 7 beyond it. -/
theorem playQueue_total_witness :
    ((0 : Int) ≤ 2 ∧ (2 : Int) < (sampleQueue.length : Int)) ∧
    (playQueue sampleQueue 2 State.initial).currentTrack = sampleQueue[(2 : Int).toNat]? ∧
    ¬ ((0 : Int) ≤ 7 ∧ (7 : Int) < (sampleQueue.length : Int)) ∧
    (playQueue sampleQueue 7 State.initial).currentTrack = State.initial.currentTrack :=
  ⟨by decide, ((playQueue_total sampleQueue 2 State.initial).2.2.1 (by decide)).1,
   by decide, ((playQueue_total sampleQueue 7 State.initial).2.2.2 (by decide)).1⟩

/-! ## C8: queue and position in reachable states -/

theorem queueInv_playNext (s : State) (h : QueueInv s) : QueueInv (playNext s) := by
  by_cases he : s.queue = []
  · rw [playNext_empty s he]; exact h
  · obtain ⟨h0, h1⟩ := h.1 he
    have hi : s.queueIndex = (s.queueIndex.toNat : Int) := by omega
    have hlt : s.queueIndex.toNat < s.queue.length := by omega
    obtain ⟨q, ix, _⟩ := playNext_inRange s _ hi hlt
    have hm := Nat.mod_lt (s.queueIndex.toNat + 1) (Nat.zero_lt_of_lt hlt)
    refine ⟨fun _ => ?_, fun hq => absurd (q ▸ hq) he⟩
    rw [ix, q]
    omega

theorem queueInv_playPrev (s : State) (h : QueueInv s) : QueueInv (playPrev s) := by
  by_cases he : s.queue = []
  · rw [playPrev_empty s he]; exact h
  · obtain ⟨h0, h1⟩ := h.1 he
    have hi : s.queueIndex = (s.queueIndex.toNat : Int) := by omega
    have hlt : s.queueIndex.toNat < s.queue.length := by omega
    obtain ⟨q, ix, _⟩ := playPrev_inRange s _ hi hlt
    have hm := Nat.mod_lt (s.queueIndex.toNat + s.queue.length - 1) (Nat.zero_lt_of_lt hlt)
    refine ⟨fun _ => ?_, fun hq => absurd (q ▸ hq) he⟩
    rw [ix, q]
    omega

theorem queueInv_apply (e : QueueEvent) (s : State) (h : QueueInv s) :
    QueueInv (e.apply s) := by
  cases e with
  | rowPlay tracks index =>
    obtain ⟨q, ix⟩ := playQueue_queue tracks (index.val : Int) s
    have hlt := index.isLt
    refine ⟨fun _ => ?_, fun hq => ?_⟩
    · simp only [QueueEvent.apply, q, ix]
      omega
    · simp only [QueueEvent.apply, q] at hq
      subst hq
      exact absurd hlt (Nat.not_lt_zero _)
  | playPlaylist L =>
    obtain ⟨q, ix⟩ := playQueue_queue L 0 s
    refine ⟨fun hq => ?_, fun _ => Or.inr ix⟩
    simp only [QueueEvent.apply, q, ix] at hq ⊢
    have : 0 < L.length := List.length_pos.mpr hq
    omega
  | next => exact queueInv_playNext s h
  | prev => exact queueInv_playPrev s h
  | ended => exact queueInv_playNext s h

/-- C8, as stated, fails: pressing the play-playlist button of a playlist that resolves
to no track leaves an empty queue with `queueIndex = 0`, not `-1`. -/
theorem queueIndex_empty_counterexample :
    playlistTracks emptyPlaylist sampleDB.tracks = [] ∧
    (runEvents [QueueEvent.playPlaylist (playlistTracks emptyPlaylist sampleDB.tracks)]
      State.initial).queue = [] ∧
    (runEvents [QueueEvent.playPlaylist (playlistTracks emptyPlaylist sampleDB.tracks)]
      State.initial).queueIndex = 0 ∧
    (runEvents [QueueEvent.playPlaylist (playlistTracks emptyPlaylist sampleDB.tracks)]
      State.initial).queueIndex ≠ -1 := by
  decide

/-- C8, amended.  In every state reached from the initial state by the queue actions
of the UI, a non-empty queue has `0 ≤ queueIndex < queue.length`, and an empty queue has
`queueIndex = -1` or `queueIndex = 0`. -/
theorem queueInv_reachable (events : List QueueEvent) :
    ((runEvents events State.initial).queue ≠ [] →
      0 ≤ (runEvents events State.initial).queueIndex ∧
      (runEvents events State.initial).queueIndex
        < ((runEvents events State.initial).queue.length : Int)) ∧
    ((runEvents events State.initial).queue = [] →
      (runEvents events State.initial).queueIndex = -1 ∨
      (runEvents events State.initial).queueIndex = 0) := by
  have gen : ∀ (es : List QueueEvent) (s : State), QueueInv s → QueueInv (runEvents es s) := by
    intro es
    induction es with
    | nil => intro s h; exact h
    | cons e es ih => intro s h; exact ih _ (queueInv_apply e s h)
  have h0 : QueueInv State.initial := by
    refine ⟨fun h => absurd rfl h, fun _ => Or.inl rfl⟩
  exact gen events State.initial h0

/-- C8 amended, after playing the last row of a three-track library and pressing
"next" (the queue is non-empty and the index is back in range at 0), and before any
action (the queue is empty). -/
theorem queueInv_reachable_witness :
    ((runEvents [QueueEvent.rowPlay sampleQueue ⟨2, by decide⟩, QueueEvent.next]
        State.initial).queue ≠ [] ∧
      (0 ≤ (runEvents [QueueEvent.rowPlay sampleQueue ⟨2, by decide⟩, QueueEvent.next]
          State.initial).queueIndex ∧
        (runEvents [QueueEvent.rowPlay sampleQueue ⟨2, by decide⟩, QueueEvent.next]
          State.initial).queueIndex
          < ((runEvents [QueueEvent.rowPlay sampleQueue ⟨2, by decide⟩, QueueEvent.next]
              State.initial).queue.length : Int))) ∧
    ((runEvents [] State.initial).queue = [] ∧
      ((runEvents [] State.initial).queueIndex = -1 ∨
        (runEvents [] State.initial).queueIndex = 0)) :=
  ⟨⟨by decide,
    (queueInv_reachable [QueueEvent.rowPlay sampleQueue ⟨2, by decide⟩, QueueEvent.next]).1
      (by decide)⟩,
   ⟨by decide, (queueInv_reachable []).2 (by decide)⟩⟩

/-! ## C1: playlist resolution -/

theorem filterTruthy_map (allTracks : List Track) (ids : List Nat) :
    filterTruthy (ids.map (fun tid => allTracks.find? (fun t => t.id == tid)))
      = resolveSpec allTracks ids := by
  induction ids with
  | nil => rfl
  | cons tid rest ih =>
    simp only [List.map_cons, resolveSpec]
    cases hf : allTracks.find? (fun t => t.id == tid) with
    | none => simpa [filterTruthy] using ih
    | some t => simpa [filterTruthy] using ih

theorem resolveSpec_mem (allTracks : List Track) (ids : List Nat) (t : Track)
    (h : t ∈ resolveSpec allTracks ids) : t ∈ allTracks ∧ t.id ∈ ids := by
  induction ids with
  | nil => simp [resolveSpec] at h
  | cons tid rest ih =>
    simp only [resolveSpec] at h
    cases hf : allTracks.find? (fun t => t.id == tid) with
    | none =>
      rw [hf] at h
      exact ⟨(ih h).1, List.mem_cons_of_mem _ (ih h).2⟩
    | some u =>
      rw [hf] at h
      rcases List.mem_cons.mp h with rfl | h'
      · have hid := List.find?_some hf
        refine ⟨List.mem_of_find?_eq_some hf, ?_⟩
        have : t.id = tid := by simpa using hid
        rw [this]; exact List.mem_cons_self _ _
      · exact ⟨(ih h').1, List.mem_cons_of_mem _ (ih h').2⟩

theorem resolveSpec_ids (allTracks : List Track) (ids : List Nat) :
    (resolveSpec allTracks ids).map (fun t => t.id)
      = ids.filter (fun tid => allTracks.any (fun t => t.id == tid)) := by
  induction ids with
  | nil => rfl
  | cons tid rest ih =>
    simp only [resolveSpec]
    cases hf : allTracks.find? (fun t => t.id == tid) with
    | none =>
      have hany : allTracks.any (fun t => t.id == tid) = false := by
        rw [List.find?_eq_none] at hf
        rw [List.any_eq_false]
        exact hf
      simp only [List.filter_cons, hany]
      simpa using ih
    | some u =>
      have hid : u.id = tid := by simpa using List.find?_some hf
      have hany : allTracks.any (fun t => t.id == tid) = true := by
        rw [List.any_eq_true]
        exact ⟨u, List.mem_of_find?_eq_some hf, by simp [hid]⟩
      simp only [List.filter_cons, hany, List.map_cons, hid, if_true]
      rw [ih]

/-- C1.  The list computed by `openPlaylist` is the playlist's `trackIds` in order, each
replaced by the stored track with that id and the ids without a stored track dropped;
every returned track is in the store and was referenced by the playlist, and the ids of
the returned tracks are the playlist's resolvable ids in their original order. -/
theorem playlistTracks_resolves (pl : Playlist) (allTracks : List Track) :
    playlistTracks pl allTracks = resolveSpec allTracks pl.trackIds ∧
    playlistTracks pl allTracks
      = pl.trackIds.filterMap (fun tid => allTracks.find? (fun t => t.id == tid)) ∧
    (∀ t ∈ playlistTracks pl allTracks, t ∈ allTracks ∧ t.id ∈ pl.trackIds) ∧
    (playlistTracks pl allTracks).map (fun t => t.id)
      = pl.trackIds.filter (fun tid => allTracks.any (fun t => t.id == tid)) ∧
    ((playlistTracks pl allTracks).map (fun t => t.id)).Sublist pl.trackIds := by
  have e : playlistTracks pl allTracks = resolveSpec allTracks pl.trackIds :=
    filterTruthy_map allTracks pl.trackIds
  refine ⟨e, ?_, ?_, ?_, ?_⟩
  · rw [e]
    generalize pl.trackIds = ids
    induction ids with
    | nil => rfl
    | cons tid rest ih =>
      simp only [resolveSpec, List.filterMap_cons]
      cases hf : allTracks.find? (fun t => t.id == tid) with
      | none => simpa using ih
      | some u => simpa using ih
  · intro t ht
    rw [e] at ht
    exact resolveSpec_mem allTracks pl.trackIds t ht
  · rw [e]; exact resolveSpec_ids allTracks pl.trackIds
  · rw [e, resolveSpec_ids]
    exact List.filter_sublist _

/-- C1 on a playlist `[5, 9, 1]` over a store holding tracks 1, 2 and 5: track 5 is
returned and is in the store. -/
theorem playlistTracks_resolves_witness :
    sampleTrack 5 ∈ playlistTracks danglingPlaylist sampleDB.tracks ∧
    (sampleTrack 5 ∈ sampleDB.tracks ∧ (sampleTrack 5).id ∈ danglingPlaylist.trackIds) ∧
    playlistTracks danglingPlaylist sampleDB.tracks = [sampleTrack 5, sampleTrack 1] :=
  ⟨by decide,
   (playlistTracks_resolves danglingPlaylist sampleDB.tracks).2.2.1 (sampleTrack 5) (by decide),
   by decide⟩

/-! ## C2: deleting a track -/

theorem filter_ne_of_not_mem (t : Nat) (ids : List Nat) (h : t ∉ ids) :
    ids.filter (fun id => id ≠ t) = ids := by
  rw [List.filter_eq_self]
  intro a ha
  have : a ≠ t := fun e => h (e ▸ ha)
  simpa using this

theorem pruneTrackId_eq (t : Nat) (pl : Playlist) :
    pruneTrackId t pl = { pl with trackIds := pl.trackIds.filter (fun id => id ≠ t) } := by
  unfold pruneTrackId
  split
  · rfl
  · rename_i h
    have hn : t ∉ pl.trackIds := by simpa using h
    rw [filter_ne_of_not_mem t _ hn]

theorem not_mem_filter_ne (t : Nat) (ids : List Nat) :
    t ∉ ids.filter (fun id => id ≠ t) := by
  simp [List.mem_filter]

/-- C2.  After a confirmed `deleteTrack(t)`: no stored track has id `t` (the other
tracks are kept); no playlist's `trackIds` contains `t`; the playlists are the same
records in the same order, each with `trackIds` equal to its previous `trackIds` with
every occurrence of `t` removed, and a playlist that did not contain `t` is unchanged. -/
theorem deleteTrack_prunes (t : Nat) (s : State) (db : DB) :
    (∀ tr ∈ (deleteTrack true t s db).2.tracks, tr.id ≠ t) ∧
    (deleteTrack true t s db).2.tracks = db.tracks.filter (fun tr => tr.id ≠ t) ∧
    (∀ pl ∈ (deleteTrack true t s db).2.playlists, t ∉ pl.trackIds) ∧
    List.Forall₂
      (fun after before =>
        after.id = before.id ∧ after.name = before.name ∧
        after.createdAt = before.createdAt ∧
        after.trackIds = before.trackIds.filter (fun id => id ≠ t) ∧
        (t ∉ before.trackIds → after = before))
      (deleteTrack true t s db).2.playlists db.playlists := by
  have hp : (deleteTrack true t s db).2.playlists = db.playlists.map (pruneTrackId t) := by
    simp [deleteTrack]
  have ht : (deleteTrack true t s db).2.tracks = db.tracks.filter (fun tr => tr.id ≠ t) := by
    simp [deleteTrack, deleteTrackRecord]
  refine ⟨?_, ht, ?_, ?_⟩
  · intro tr htr
    rw [ht, List.mem_filter] at htr
    simpa using htr.2
  · intro pl hpl
    rw [hp, List.mem_map] at hpl
    obtain ⟨before, _, rfl⟩ := hpl
    rw [pruneTrackId_eq]
    exact not_mem_filter_ne t before.trackIds
  · rw [hp]
    generalize db.playlists = pls
    induction pls with
    | nil => exact List.Forall₂.nil
    | cons before rest ih =>
      refine List.Forall₂.cons ?_ ih
      rw [pruneTrackId_eq]
      refine ⟨rfl, rfl, rfl, rfl, ?_⟩
      intro hn
      rw [filter_ne_of_not_mem t _ hn]

/-- C2 on the sample database, deleting track 5: the track is gone, the playlist
"Chill" `[5, 1, 5]` becomes `[1]` and "Focus" `[2, 1]` is unchanged. -/
theorem deleteTrack_prunes_witness :
    (sampleTrack 1 ∈ (deleteTrack true 5 State.initial sampleDB).2.tracks ∧
      (sampleTrack 1).id ≠ 5) ∧
    ({ chillPlaylist with trackIds := [1] }
        ∈ (deleteTrack true 5 State.initial sampleDB).2.playlists ∧
      5 ∉ ({ chillPlaylist with trackIds := [1] } : Playlist).trackIds) ∧
    (deleteTrack true 5 State.initial sampleDB).2.playlists
      = [{ chillPlaylist with trackIds := [1] }, focusPlaylist] :=
  ⟨⟨by decide, (deleteTrack_prunes 5 State.initial sampleDB).1 (sampleTrack 1) (by decide)⟩,
   ⟨by decide, (deleteTrack_prunes 5 State.initial sampleDB).2.2.1 _ (by decide)⟩,
   by decide⟩

/-! ## C6 and C7: adding to and removing from a playlist -/

theorem getPlaylist_cons (k : Nat) (p : Playlist) (ps : List Playlist) :
    getPlaylist k (p :: ps) = if p.id = k then some p else getPlaylist k ps := by
  by_cases h : p.id = k <;> simp [getPlaylist, List.find?_cons, h]

theorem getPlaylist_put (k : Nat) (r : Playlist) (store : List Playlist) :
    getPlaylist k (putPlaylist r store) = if k = r.id then some r else getPlaylist k store := by
  induction store with
  | nil =>
    simp only [putPlaylist, getPlaylist_cons]
    split_ifs <;> first | rfl | (exfalso; omega)
  | cons p ps ih =>
    simp only [putPlaylist]
    split_ifs with h1 h2 h3 h3 h3 <;> simp only [getPlaylist_cons, ih] <;> split_ifs <;>
      first | rfl | (exfalso; omega)

theorem putPlaylist_put (r : Playlist) (store : List Playlist) :
    putPlaylist r (putPlaylist r store) = putPlaylist r store := by
  induction store with
  | nil => simp [putPlaylist]
  | cons p ps ih =>
    by_cases h1 : r.id < p.id
    · simp [putPlaylist, h1]
    · by_cases h2 : r.id = p.id
      · simp [putPlaylist, h1, h2]
      · simp [putPlaylist, h1, h2, ih]

theorem getPlaylist_id (k : Nat) (store : List Playlist) (pl : Playlist)
    (h : getPlaylist k store = some pl) : pl.id = k ∧ pl ∈ store := by
  unfold getPlaylist at h
  exact ⟨by simpa using List.find?_some h, List.mem_of_find?_eq_some h⟩

theorem putPlaylist_get_sorted (store : List Playlist) (pl : Playlist)
    (hs : store.Pairwise (fun a b => a.id < b.id))
    (h : getPlaylist pl.id store = some pl) : putPlaylist pl store = store := by
  induction store with
  | nil => simp [getPlaylist] at h
  | cons p ps ih =>
    rw [List.pairwise_cons] at hs
    by_cases hp : p.id = pl.id
    · have : pl = p := by
        simp only [getPlaylist, List.find?_cons] at h
        simp only [hp, beq_self_eq_true] at h
        exact (Option.some.inj h).symm
      subst this
      simp [putPlaylist]
    · have h' : getPlaylist pl.id ps = some pl := by
        simp only [getPlaylist, List.find?_cons] at h ⊢
        have : (p.id == pl.id) = false := by simpa using hp
        simpa [this] using h
      have hm := (getPlaylist_id _ _ _ h').2
      have hlt := hs.1 pl hm
      have h1 : ¬ pl.id < p.id := by omega
      have h2 : ¬ pl.id = p.id := fun e => hp e.symm
      simp [putPlaylist, h1, h2, ih hs.2 h']

/-- C6.  The click handler built by `addToPlaylist(t)` for a playlist: if `t` is already
in `trackIds` the playlist and the database are left unchanged, nothing is handed to
`put` and the alert "Track already in playlist" is shown; otherwise the record handed to
`put`, and stored under the playlist's id, is the playlist with `t` appended at the end
of `trackIds`, the other playlists are untouched and no alert is shown.  A playlist
without duplicates has none afterwards. -/
theorem addToPlaylistClick_spec (t : Nat) (pl : Playlist) (db : DB) :
    (t ∈ pl.trackIds →
      addToPlaylistClick t pl db
        = { pl := pl, db := db, persisted := none,
            alert := some "Track already in playlist" }) ∧
    (t ∉ pl.trackIds →
      (addToPlaylistClick t pl db).pl = { pl with trackIds := pl.trackIds ++ [t] } ∧
      (addToPlaylistClick t pl db).persisted
        = some { pl with trackIds := pl.trackIds ++ [t] } ∧
      getPlaylist pl.id (addToPlaylistClick t pl db).db.playlists
        = some { pl with trackIds := pl.trackIds ++ [t] } ∧
      (∀ k, k ≠ pl.id →
        getPlaylist k (addToPlaylistClick t pl db).db.playlists = getPlaylist k db.playlists) ∧
      (addToPlaylistClick t pl db).db.tracks = db.tracks ∧
      (addToPlaylistClick t pl db).alert = none) ∧
    (pl.trackIds.Nodup → (addToPlaylistClick t pl db).pl.trackIds.Nodup) := by
  have hnew : t ∉ pl.trackIds →
      addToPlaylistClick t pl db
        = { pl := { pl with trackIds := pl.trackIds ++ [t] },
            db := { db with
              playlists := putPlaylist { pl with trackIds := pl.trackIds ++ [t] } db.playlists },
            persisted := some { pl with trackIds := pl.trackIds ++ [t] },
            alert := none } := by
    intro h
    simp [addToPlaylistClick, h]
  refine ⟨?_, ?_, ?_⟩
  · intro h
    simp [addToPlaylistClick, h]
  · intro h
    rw [hnew h]
    refine ⟨rfl, rfl, ?_, ?_, rfl, rfl⟩
    · show getPlaylist pl.id (putPlaylist _ db.playlists) = _
      rw [getPlaylist_put]; simp
    · intro k hk
      show getPlaylist k (putPlaylist _ db.playlists) = _
      rw [getPlaylist_put]
      simp [hk]
  · intro hnd
    by_cases h : t ∈ pl.trackIds
    · simpa [addToPlaylistClick, h] using hnd
    · rw [hnew h]
      show (pl.trackIds ++ [t]).Nodup
      rw [List.nodup_append]
      refine ⟨hnd, List.nodup_singleton t, ?_⟩
      simpa [List.disjoint_singleton] using h

/-- C6 on the sample database: adding track 2 to "Focus" `[2, 1]` changes nothing and
alerts; adding track 5 appends it. -/
theorem addToPlaylistClick_spec_witness :
    (2 ∈ focusPlaylist.trackIds ∧
      (addToPlaylistClick 2 focusPlaylist sampleDB).db = sampleDB ∧
      (addToPlaylistClick 2 focusPlaylist sampleDB).alert = some "Track already in playlist") ∧
    (5 ∉ focusPlaylist.trackIds ∧
      (addToPlaylistClick 5 focusPlaylist sampleDB).pl.trackIds = [2, 1, 5]) ∧
    (focusPlaylist.trackIds.Nodup ∧
      (addToPlaylistClick 5 focusPlaylist sampleDB).pl.trackIds.Nodup) :=
  ⟨⟨by decide,
    by rw [(addToPlaylistClick_spec 2 focusPlaylist sampleDB).1 (by decide)],
    by rw [(addToPlaylistClick_spec 2 focusPlaylist sampleDB).1 (by decide)]⟩,
   ⟨by decide,
    by rw [((addToPlaylistClick_spec 5 focusPlaylist sampleDB).2.1 (by decide)).1]; rfl⟩,
   ⟨by decide, (addToPlaylistClick_spec 5 focusPlaylist sampleDB).2.2 (by decide)⟩⟩

/-- C7.  For an existing playlist `p`, `removeFromPlaylist(p, t)` succeeds and stores
under `p` the playlist with every occurrence of `t` removed from `trackIds`, the other
ids in their original order; the other playlists and the tracks are untouched.  When `t`
was absent the stored record is the one that was there (and a store in key order is
unchanged as a whole), and calling it a second time leaves the database as the first
call left it. -/
theorem removeFromPlaylist_idempotent (p t : Nat) (db : DB) (pl : Playlist)
    (h : getPlaylist p db.playlists = some pl) :
    ∃ db1 : DB,
      removeFromPlaylist p t db = some db1 ∧
      getPlaylist p db1.playlists
        = some { pl with trackIds := pl.trackIds.filter (fun id => id ≠ t) } ∧
      (pl.trackIds.filter (fun id => id ≠ t)).Sublist pl.trackIds ∧
      t ∉ pl.trackIds.filter (fun id => id ≠ t) ∧
      (∀ k, k ≠ p → getPlaylist k db1.playlists = getPlaylist k db.playlists) ∧
      db1.tracks = db.tracks ∧
      (t ∉ pl.trackIds → getPlaylist p db1.playlists = some pl) ∧
      (t ∉ pl.trackIds → db.playlists.Pairwise (fun a b => a.id < b.id) → db1 = db) ∧
      removeFromPlaylist p t db1 = some db1 := by
  obtain ⟨hid, _⟩ := getPlaylist_id p db.playlists pl h
  have hrun : removeFromPlaylist p t db
      = some { db with
          playlists :=
            putPlaylist { pl with trackIds := pl.trackIds.filter (fun id => id ≠ t) }
              db.playlists } := by
    simp only [removeFromPlaylist, h]
  have hg : getPlaylist p
      (putPlaylist { pl with trackIds := pl.trackIds.filter (fun id => id ≠ t) } db.playlists)
      = some { pl with trackIds := pl.trackIds.filter (fun id => id ≠ t) } := by
    rw [getPlaylist_put]; simp [hid]
  refine ⟨{ db with
      playlists :=
        putPlaylist { pl with trackIds := pl.trackIds.filter (fun id => id ≠ t) }
          db.playlists }, hrun, hg, List.filter_sublist _, not_mem_filter_ne t _, ?_, rfl,
    ?_, ?_, ?_⟩
  · intro k hk
    show getPlaylist k (putPlaylist _ db.playlists) = _
    rw [getPlaylist_put]
    simp [hid, hk]
  · intro hn
    show getPlaylist p (putPlaylist _ db.playlists) = _
    rw [hg, filter_ne_of_not_mem t _ hn]
  · intro hn hs
    rw [filter_ne_of_not_mem t _ hn]
    have hput := putPlaylist_get_sorted db.playlists pl hs (hid.symm ▸ h)
    show ({ db with playlists := putPlaylist pl db.playlists } : DB) = db
    rw [hput]
  · simp only [removeFromPlaylist, hg, List.filter_filter, Bool.and_self, putPlaylist_put]

/-- C7 on the sample database: removing track 5 from "Chill" `[5, 1, 5]` stores `[1]`,
and removing it again changes nothing; removing the absent track 9 leaves the database
as it was. -/
theorem removeFromPlaylist_idempotent_witness :
    getPlaylist 1 sampleDB.playlists = some chillPlaylist ∧
    (∃ db1 : DB,
      removeFromPlaylist 1 5 sampleDB = some db1 ∧
      getPlaylist 1 db1.playlists
        = some { chillPlaylist with
            trackIds := chillPlaylist.trackIds.filter (fun id => id ≠ 5) } ∧
      removeFromPlaylist 1 5 db1 = some db1) ∧
    (9 ∉ chillPlaylist.trackIds ∧
      sampleDB.playlists.Pairwise (fun a b => a.id < b.id) ∧
      ∃ db1 : DB, removeFromPlaylist 1 9 sampleDB = some db1 ∧ db1 = sampleDB) := by
  refine ⟨by decide, ?_, by decide, by decide, ?_⟩
  · obtain ⟨db1, h1, h2, _, _, _, _, _, _, h9⟩ :=
      removeFromPlaylist_idempotent 1 5 sampleDB chillPlaylist (by decide)
    exact ⟨db1, h1, h2, h9⟩
  · obtain ⟨db1, h1, _, _, _, _, _, _, h8, _⟩ :=
      removeFromPlaylist_idempotent 1 9 sampleDB chillPlaylist (by decide)
    exact ⟨db1, h1, h8 (by decide) (by decide)⟩

/-! ## C9: deleting the current track -/

theorem deleteTrack_liveUrls (confirmed : Bool) (t : Nat) (s : State) (db : DB) :
    (deleteTrack confirmed t s db).1.liveUrls = s.liveUrls := by
  unfold deleteTrack
  cases confirmed
  · rfl
  · cases hc : s.currentTrack with
    | none => simp [hc]
    | some cur =>
      by_cases h : cur.id = t <;> simp [hc, h]

/-- C9 evaluated on the code.  Track 5 is loaded (object URL 0 is created, bound and
live) and then deleted with confirmation: the output is paused, `currentTrack` is
cleared, `isPlaying` is false and the element's `src` is emptied, but URL 0 is never
revoked and stays live; since `src` is now empty, the next `loadTrack` does not revoke it
either. -/
theorem deleteTrack_keeps_objectURL_live :
    playingState.currentTrack = some (sampleTrack 5) ∧
    playingState.audioSrc = some 0 ∧
    playingState.liveUrls = [0] ∧
    (deleteTrack true 5 playingState sampleDB).1.currentTrack = none ∧
    (deleteTrack true 5 playingState sampleDB).1.isPlaying = false ∧
    (deleteTrack true 5 playingState sampleDB).1.audioPaused = true ∧
    (deleteTrack true 5 playingState sampleDB).1.audioSrc = none ∧
    (deleteTrack true 5 playingState sampleDB).1.liveUrls = [0] ∧
    (playQueue sampleQueue 0 (deleteTrack true 5 playingState sampleDB).1).liveUrls = [1, 0] := by
  decide

/-! ## C10: deriving a track from an uploaded file -/

theorem extensionMatchesAt_dot (ext : List Char) (h1 : ext ≠ [])
    (h2 : ∀ c ∈ ext, c ≠ '.' ∧ c ≠ '/') : extensionMatchesAt ('.' :: ext) = true := by
  cases ext with
  | nil => exact absurd rfl h1
  | cons e es =>
    simp only [extensionMatchesAt, beq_self_eq_true, List.isEmpty_cons, Bool.not_false,
      Bool.and_self, Bool.true_and, List.all_eq_true, Bool.and_eq_true, bne_iff_ne]
    intro c hc
    exact ⟨(h2 c hc).2, (h2 c hc).1⟩

theorem extensionMatchesAt_elim (cs : List Char) (h : extensionMatchesAt cs = true) :
    ∃ ext, cs = '.' :: ext ∧ ext ≠ [] ∧ ∀ c ∈ ext, c ≠ '.' ∧ c ≠ '/' := by
  cases cs with
  | nil => simp [extensionMatchesAt] at h
  | cons c rest =>
    simp only [extensionMatchesAt, Bool.and_eq_true, beq_iff_eq, Bool.not_eq_true',
      List.isEmpty_eq_false, List.all_eq_true, bne_iff_ne] at h
    obtain ⟨⟨hc, hne⟩, hall⟩ := h
    refine ⟨rest, by rw [hc], ?_, fun d hd => ⟨(hall d hd).2, (hall d hd).1⟩⟩
    intro e
    rw [e] at hne
    simp at hne

theorem extensionMatchesAt_inner (c : Char) (base ext : List Char) :
    extensionMatchesAt (c :: (base ++ '.' :: ext)) = false := by
  cases hm : extensionMatchesAt (c :: (base ++ '.' :: ext)) with
  | false => rfl
  | true =>
    obtain ⟨e, he, _, hall⟩ := extensionMatchesAt_elim _ hm
    have hrest : base ++ '.' :: ext = e := (List.cons.inj he).2
    have hmem : '.' ∈ e := by rw [← hrest]; simp
    exact absurd rfl (hall '.' hmem).1

theorem stripExtension_append (base ext : List Char) (h1 : ext ≠ [])
    (h2 : ∀ c ∈ ext, c ≠ '.' ∧ c ≠ '/') : stripExtension (base ++ '.' :: ext) = base := by
  induction base with
  | nil =>
    simp only [List.nil_append, stripExtension, extensionMatchesAt_dot ext h1 h2, if_true]
  | cons c cs ih =>
    have hm := extensionMatchesAt_inner c cs ext
    rw [List.cons_append]
    simp [stripExtension, hm, ih]

theorem stripExtension_unchanged (name : List Char)
    (h : ¬ ∃ base ext : List Char,
      name = base ++ '.' :: ext ∧ ext ≠ [] ∧ ∀ c ∈ ext, c ≠ '.' ∧ c ≠ '/') :
    stripExtension name = name := by
  induction name with
  | nil => rfl
  | cons c cs ih =>
    cases hm : extensionMatchesAt (c :: cs) with
    | true =>
      obtain ⟨e, he, hne, hall⟩ := extensionMatchesAt_elim _ hm
      exact absurd ⟨[], e, by simpa using he, hne, hall⟩ h
    | false =>
      simp only [stripExtension, hm]
      have hcs : stripExtension cs = cs := by
        apply ih
        rintro ⟨b, e, hbe, hne, hall⟩
        exact h ⟨c :: b, e, by rw [hbe]; rfl, hne, hall⟩
      simp [hcs]

theorem saveFiles_tracks (files : List (File × Nat)) (db : DB) :
    ∃ added : List Track,
      (saveFiles files db).tracks = db.tracks ++ added ∧
      List.Forall₂
        (fun tr f =>
          tr.name = stripName f.1.name ∧ tr.type = fileTypeOf f.1 ∧ tr.size = f.1.size ∧
          tr.data = f.1 ∧ tr.addedAt = f.2)
        added files := by
  induction files generalizing db with
  | nil => exact ⟨[], by simp [saveFiles], List.Forall₂.nil⟩
  | cons f fs ih =>
    obtain ⟨added, h1, h2⟩ := ih (addTrackRecord (trackOfFile f.1 f.2) db)
    refine ⟨{ id := db.tracksNextKey, name := stripName f.1.name, type := fileTypeOf f.1,
              size := f.1.size, data := f.1, addedAt := f.2 } :: added, ?_,
            List.Forall₂.cons ?_ h2⟩
    · have : saveFiles (f :: fs) db = saveFiles fs (addTrackRecord (trackOfFile f.1 f.2) db) := rfl
      rw [this, h1]
      simp only [addTrackRecord, trackOfFile, List.append_assoc, List.singleton_append]
    · exact ⟨rfl, rfl, rfl, rfl, rfl⟩

/-- C10.  `saveFiles` appends one track per uploaded file, in order; each track's name is
the file name with its extension stripped, its type is the file's type when that is
non-empty and "audio/mp3" otherwise, and its size is the file's size.  Stripping turns
`base + "." + ext`, with `ext` non-empty and free of "." and "/", into `base`, and leaves
a name that has no such trailing extension unchanged. -/
theorem saveFiles_derives (files : List (File × Nat)) (db : DB) :
    (∃ added : List Track,
      (saveFiles files db).tracks = db.tracks ++ added ∧
      List.Forall₂
        (fun tr f =>
          tr.name = stripName f.1.name ∧
          (f.1.type ≠ "" → tr.type = f.1.type) ∧
          (f.1.type = "" → tr.type = "audio/mp3") ∧
          tr.size = f.1.size)
        added files) ∧
    (∀ base ext : String, ext ≠ "" → (∀ c ∈ ext.data, c ≠ '.' ∧ c ≠ '/') →
      stripName (base ++ "." ++ ext) = base) ∧
    (∀ name : String,
      (¬ ∃ base ext : String,
        name = base ++ "." ++ ext ∧ ext ≠ "" ∧ ∀ c ∈ ext.data, c ≠ '.' ∧ c ≠ '/') →
      stripName name = name) := by
  refine ⟨?_, ?_, ?_⟩
  · obtain ⟨added, h1, h2⟩ := saveFiles_tracks files db
    refine ⟨added, h1, ?_⟩
    refine List.Forall₂.imp ?_ h2
    rintro tr f ⟨hn, ht, hsz, _, _⟩
    refine ⟨hn, ?_, ?_, hsz⟩
    · intro hne
      rw [ht, fileTypeOf, if_neg hne]
    · intro he
      rw [ht, fileTypeOf, if_pos he]
  · intro base ext hne hall
    have hdata : (base ++ "." ++ ext).data = base.data ++ '.' :: ext.data := by
      simp [String.data_append]
    have hne2 : ext.data ≠ [] := by
      intro e
      exact hne (String.ext e)
    unfold stripName
    rw [hdata, stripExtension_append base.data ext.data hne2 hall]
  · intro name hno
    unfold stripName
    rw [stripExtension_unchanged name.data]
    rintro ⟨b, e, hbe, hne, hall⟩
    refine hno ⟨String.mk b, String.mk e, ?_, ?_, hall⟩
    · apply String.ext
      simp [String.data_append, hbe]
    · intro h
      apply hne
      have := congrArg String.data h
      simpa using this

/-- C10 on concrete names: "my.song.mp3" becomes "my.song", "README" stays. -/
theorem saveFiles_derives_witness :
    ("mp3" ≠ "" ∧ (∀ c ∈ "mp3".data, c ≠ '.' ∧ c ≠ '/') ∧
      stripName ("my.song" ++ "." ++ "mp3") = "my.song") ∧
    stripName "README" = "README" := by
  refine ⟨⟨by decide, by decide,
    (saveFiles_derives [] sampleDB).2.1 "my.song" "mp3" (by decide) (by decide)⟩,
    (saveFiles_derives [] sampleDB).2.2 "README" ?_⟩
  rintro ⟨base, ext, h, _, _⟩
  have hmem : '.' ∈ "README".data := by
    rw [h]
    simp [String.data_append]
  revert hmem
  decide

end Music1
